import Mathlib

/-
  Verification of the LeafSync core against its specification.

  The definitions below are shallow embeddings of the Rust functions in
  src/chunk.rs, src/syncer.rs, src/merkle.rs, src/net.rs, src/resume.rs and
  src/trust.rs.  Byte values are modelled as Nat, byte strings and paths as
  List Char, SHA-256 digests as an abstract function parameter (the code only
  ever compares digests for equality).
-/

namespace LeafSync

/-- A 32-byte SHA-256 digest, modelled as a list of byte values. -/
abbrev Hash := List Nat

/-- The fixed all-zero root used for empty files (merkle.rs `[0u8; 32]`). -/
def zeroHash : Hash := List.replicate 32 0

/-- chunk.rs `ChunkInfo`: index, hash and size of one chunk. -/
structure ChunkInfo where
  index : Nat
  hash : Hash
  size : Nat
deriving Repr, DecidableEq

/-- A default chunk, used only as the default value of list lookups. -/
def defaultChunk : ChunkInfo := ⟨0, [], 0⟩

/-! ### syncer.rs: diff_needed_indices -/

/-- Whether chunk `i` is missing locally: syncer.rs compares
`local_chunks.get(i)` against the remote hash, treating absence as a miss. -/
def missAt (lc : List ChunkInfo) (i : Nat) (h : Hash) : Bool :=
  match lc.get? i with
  | some c => c.hash ≠ h
  | none => true

/-- The enumeration loop of syncer.rs `diff_needed_indices`: walk the remote
hashes with a running index, collecting the indices that miss. -/
def diffGo (lc : List ChunkInfo) : Nat → List Hash → List Nat
  | _, [] => []
  | i, h :: rest =>
    if missAt lc i h then i :: diffGo lc (i + 1) rest
    else diffGo lc (i + 1) rest

/-- syncer.rs `diff_needed_indices`. -/
def diff_needed_indices (lc : List ChunkInfo) (remote : List Hash) : List Nat :=
  diffGo lc 0 remote

/-! ### net.rs: effective request set (run_client_filtered, lines 240-247) -/

/-- `missing.retain(|i| need_base.contains(i))`: the intersection, keeping
the order of `missing`. -/
def listInter (missing need_base : List Nat) : List Nat :=
  missing.filter (fun i => need_base.contains i)

/-- net.rs run_client_filtered: the set of chunk indices actually requested.
The code intersects the resume-missing list with the base diff and falls back
to the base diff when the intersection is empty. -/
def effective_need (need_base : List Nat) (resume_missing : Option (List Nat)) :
    List Nat :=
  match resume_missing with
  | some missing =>
    let m := listInter missing need_base
    if m.isEmpty then need_base else m
  | none => need_base

/-! ### String primitives (Rust `str::starts_with` / `ends_with` / `contains`) -/

/-- Rust `str::starts_with` on character lists. -/
def startsWithB : List Char → List Char → Bool
  | [], _ => true
  | _ :: _, [] => false
  | a :: as, b :: bs => a == b && startsWithB as bs

/-- Rust `str::ends_with` on character lists. -/
def endsWithB (suf s : List Char) : Bool :=
  startsWithB suf.reverse s.reverse

/-- Rust `str::contains` (substring search) on character lists. -/
def containsB (needle : List Char) : List Char → Bool
  | [] => needle.isEmpty
  | c :: rest => startsWithB needle (c :: rest) || containsB needle rest

/-- Specification-level statement: `s` begins with `pre`. -/
def SpecStarts (pre s : List Char) : Prop := ∃ t, s = pre ++ t

/-- Specification-level statement: `s` ends with `suf`. -/
def SpecEnds (suf s : List Char) : Prop := ∃ t, s = t ++ suf

/-- Specification-level statement: `mid` occurs as a substring of `s`. -/
def SpecHasSub (mid s : List Char) : Prop := ∃ a b, s = a ++ mid ++ b

/-! ### net.rs: normalize_rel and the mirror deletion pass -/

/-- Replace a backslash by a forward slash (Rust `p.replace('\\', "/")`). -/
def deBackslash (c : Char) : Char := if c = '\\' then '/' else c

/-- Rust `trim_start_matches('/')`: drop every leading slash. -/
def dropLeadSlash : List Char → List Char
  | [] => []
  | c :: rest => if c = '/' then dropLeadSlash rest else c :: rest

/-- net.rs `normalize_rel`: backslashes to slashes, then strip leading
slashes.  Note: it does not touch `..` components. -/
def normalize_rel (p : List Char) : List Char :=
  dropLeadSlash (p.map deBackslash)

/-- Split a path at slashes into its components. -/
def splitSlash : List Char → List (List Char)
  | [] => [[]]
  | c :: rest =>
    let r := splitSlash rest
    if c = '/' then [] :: r else (c :: r.headD []) :: r.tail

/-- Whether some slash-separated component of the path equals `..`. -/
def hasDotDotComponent (s : List Char) : Bool :=
  (splitSlash s).any (fun comp => comp == ['.', '.'])

/-- The file name of a rel path: the component after the last slash. -/
def fileNameOf (s : List Char) : List Char :=
  (splitSlash s).getLastD []

def tmpMark : List Char := ".leafsync_tmp/".data
def gitMark : List Char := "/.git/".data
def partMark : List Char := ".part".data
def tildeMark : List Char := "/~$".data

/-- net.rs `is_ignored_rel` (inside run_client_filtered): skip internal or
editor-temporary paths when mirroring deletions. -/
def is_ignored_rel (rel : List Char) : Bool :=
  let r := rel.map deBackslash
  startsWithB tmpMark r || containsB gitMark r ||
    endsWithB partMark r || containsB tildeMark r

/-- net.rs run_client_filtered, mirror pass: the rel paths moved to trash are
the normalized local paths absent from the normalized remote summary, passing
the optional single-file filter and not ignored.  (The code iterates the set
difference of two HashSets; we keep list order, membership is identical.) -/
def mirror_deletions (locals remotes : List (List Char))
    (fil : Option (List Char)) : List (List Char) :=
  (locals.map normalize_rel).filter (fun r =>
    !(remotes.map normalize_rel).contains r &&
    (match fil with
     | some f => r == f
     | none => true) &&
    !is_ignored_rel r)

/-! ### merkle.rs: build_merkle and root_hash

SHA-256 of the concatenation of two digests (merkle.rs `hash_pair`) is kept
abstract: every definition takes the pair-hash function `hp` as a parameter,
since the code only feeds digests through it and compares the results. -/

/-- One pass of the merkle.rs `while` loop body: `level.chunks(2)` hashed
pairwise, an odd last node paired with itself. -/
def levelUp (hp : Hash → Hash → Hash) : List Hash → List Hash
  | [] => []
  | [a] => [hp a a]
  | a :: b :: rest => hp a b :: levelUp hp rest

theorem levelUp_length (hp : Hash → Hash → Hash) :
    (l : List Hash) → (levelUp hp l).length = (l.length + 1) / 2
  | [] => rfl
  | [_] => by simp [levelUp]
  | _ :: _ :: rest => by
    have ih := levelUp_length hp rest
    simp only [levelUp, List.length_cons, ih]
    omega

/-- merkle.rs `build_merkle`, the `while level.len() > 1` loop: the list of
upper levels, parents of the leaves first, the top level last. -/
def buildUpper (hp : Hash → Hash → Hash) (level : List Hash) :
    List (List Hash) :=
  if _h : level.length ≤ 1 then []
  else levelUp hp level :: buildUpper hp (levelUp hp level)
termination_by level.length
decreasing_by
  rw [levelUp_length]
  omega

/-- merkle.rs `MerkleTree`: the leaves and the upper levels. -/
structure MerkleTree where
  leaves : List Hash
  upper : List (List Hash)
deriving Repr, DecidableEq

/-- merkle.rs `build_merkle`. -/
def build_merkle (hp : Hash → Hash → Hash) (chunks : List ChunkInfo) :
    MerkleTree :=
  { leaves := chunks.map ChunkInfo.hash
    upper := buildUpper hp (chunks.map ChunkInfo.hash) }

/-- merkle.rs `root_hash`: all-zero for no leaves, the sole leaf when there
is no upper level, otherwise the single node of the top level. -/
def root_hash (t : MerkleTree) : Hash :=
  if t.leaves.isEmpty then zeroHash
  else if t.upper.isEmpty then t.leaves.headD zeroHash
  else ((t.upper.getLast?).getD []).headD zeroHash

/-- The specification's description of the root (§3 of the spec): repeatedly
hash pairs (odd last node self-paired) until one node is left; the all-zero
value for an empty file, the sole leaf for a single chunk. -/
def merkleRootSpec (hp : Hash → Hash → Hash) (l : List Hash) : Hash :=
  match l with
  | [] => zeroHash
  | [a] => a
  | a :: b :: rest => merkleRootSpec hp (levelUp hp (a :: b :: rest))
termination_by l.length
decreasing_by
  rw [levelUp_length]
  simp only [List.length_cons]
  omega

/-! ### net.rs: stream-count clamp and round-robin partition -/

/-- net.rs run_client_filtered: `streams.max(1).min(16)`. -/
def clamp_streams (streams : Nat) : Nat := min (max streams 1) 16

/-- The partition loop of run_client_filtered:
`for (i, idx) in need.iter().enumerate() { parts[i % n_streams].push(idx) }`,
with `i` the running enumeration position. -/
def rrLoop (nStreams : Nat) : Nat → List Nat → List (List Nat) →
    List (List Nat)
  | _, [], parts => parts
  | i, idx :: rest, parts =>
    rrLoop nStreams (i + 1) rest
      (parts.set (i % nStreams) (parts.getD (i % nStreams) [] ++ [idx]))

/-- net.rs run_client_filtered: the shards produced from the need set. -/
def partition_rr (need : List Nat) (nStreams : Nat) : List (List Nat) :=
  rrLoop nStreams 0 need (List.replicate nStreams [])

/-- The indices lists of the per-substream `RequestChunks` messages: one per
non-empty shard (`parts.into_iter().filter(|p| !p.is_empty())`). -/
def substream_requests (need : List Nat) (streams : Nat) : List (List Nat) :=
  (partition_rr need (clamp_streams streams)).filter (fun p => !p.isEmpty)

/-- The positions-based shard contents: the elements of `rest` whose running
position `i` satisfies `i % nStreams = j`. -/
def shardSpec (nStreams j : Nat) : Nat → List Nat → List Nat
  | _, [] => []
  | i, x :: rest =>
    if i % nStreams = j then x :: shardSpec nStreams j (i + 1) rest
    else shardSpec nStreams j (i + 1) rest

/-- The claim's value-based reading: element `i` of the need set goes to
shard `i % nStreams`, for comparison with the code's position-based loop. -/
def shardByValue (need : List Nat) (nStreams j : Nat) : List Nat :=
  need.filter (fun i => i % nStreams == j)

/-- Value-based partition: shard `j` holds the need values congruent to `j`. -/
def partitionByValue (need : List Nat) (nStreams : Nat) : List (List Nat) :=
  (List.range nStreams).map (fun j => shardByValue need nStreams j)

/-! ### resume.rs: the persistent resume store -/

/-- One lowercase hex digit (`format "{:02x}"` produces 0-9 and a-f). -/
def hexDigitChar (n : Nat) : Char :=
  if n < 10 then Char.ofNat (48 + n) else Char.ofNat (87 + n)

/-- The two lowercase hex characters of one byte. -/
def byteToHex (b : Nat) : List Char := [hexDigitChar (b / 16), hexDigitChar (b % 16)]

/-- resume.rs `hex`: lowercase hex of a 32-byte digest. -/
def hexHash (h : Hash) : List Char := h.foldr (fun b acc => byteToHex b ++ acc) []

/-- resume.rs `key`: `"{addr}|{rel_path}|{root_hex}"`. -/
def resumeKey (addr rel rootHex : List Char) : List Char :=
  addr ++ ['|'] ++ rel ++ ['|'] ++ rootHex

/-- resume.rs `ResumeEntry`.  The Rust field `have` (a Lean keyword) is
rendered `haveBits`: the byte bitmap of chunks already staged. -/
structure ResumeEntry where
  size : Nat
  chunk_count : Nat
  root : Hash
  haveBits : List Nat
deriving Repr, DecidableEq

/-- The resume store contents (`HashMap<String, ResumeEntry>`), as an
association list with at most one binding per key. -/
abbrev Store := List (List Char × ResumeEntry)

/-- `store.entries.get(&k)`. -/
def storeFind (s : Store) (k : List Char) : Option ResumeEntry :=
  (s.find? (fun p => p.1 == k)).map (fun p => p.2)

/-- `HashMap` insertion: replace the binding of `k` if present, else add. -/
def storeInsert (s : Store) (k : List Char) (e : ResumeEntry) : Store :=
  if (s.find? (fun p => p.1 == k)).isSome then
    s.map (fun p => if p.1 == k then (k, e) else p)
  else (k, e) :: s

/-- resume.rs `bytes_len`: `((chunk_count + 7) / 8)`. -/
def bytesLen (chunk_count : Nat) : Nat := (chunk_count + 7) / 8

/-- resume.rs `set_bit`: OR bit `index % 8` into byte `index / 8` (the
Rust locals `byte` and `bit` are inlined); silently does nothing when the
byte offset is outside the bitmap. -/
def set_bit (bits : List Nat) (index : Nat) : List Nat :=
  if index / 8 < bits.length then
    bits.set (index / 8) (bits.getD (index / 8) 0 ||| (1 <<< (index % 8)))
  else bits

/-- resume.rs `get_bit`: test bit `index % 8` of byte `index / 8`; `false`
when the byte offset is outside the bitmap. -/
def get_bit (bits : List Nat) (index : Nat) : Bool :=
  if index / 8 < bits.length then
    (bits.getD (index / 8) 0 &&& (1 <<< (index % 8))) ≠ 0
  else false

/-- The bit-marking loop of resume.rs `upsert_mark_many`:
`for &i in indices { set_bit(&mut entry.have, i as usize) }`. -/
def markBits (idxs : List Nat) (bits : List Nat) : List Nat :=
  idxs.foldl (fun bs i => set_bit bs i) bits

/-- A fresh entry as built by resume.rs `upsert_mark_many` (both the
`or_insert_with` closure and the metadata-reset assignment). -/
def freshEntry (size chunk_count : Nat) (root : Hash) : ResumeEntry :=
  ⟨size, chunk_count, root, List.replicate (bytesLen chunk_count) 0⟩

/-- resume.rs `upsert_mark_many`: find or create the entry for the key,
reset it when the stored metadata differs from the arguments, then set each
named bit and store the result. -/
def upsert_mark_many (store : Store) (addr rel : List Char)
    (size chunk_count : Nat) (root : Hash) (indices : List Nat) : Store :=
  let k := resumeKey addr rel (hexHash root)
  let e0 :=
    match storeFind store k with
    | some e => e
    | none => freshEntry size chunk_count root
  let e1 :=
    if e0.size ≠ size ∨ e0.chunk_count ≠ chunk_count ∨ e0.root ≠ root then
      freshEntry size chunk_count root
    else e0
  let e2 : ResumeEntry :=
    { e1 with haveBits := indices.foldl (fun bs i => set_bit bs i) e1.haveBits }
  storeInsert store k e2

/-- resume.rs `missing_indices_for`: when an entry exists under the key and
all three metadata fields match, the indices below `chunk_count` whose bit is
unset; otherwise `none`. -/
def missing_indices_for (store : Store) (addr rel : List Char)
    (size chunk_count : Nat) (root : Hash) : Option (List Nat) :=
  match storeFind store (resumeKey addr rel (hexHash root)) with
  | some e =>
    if e.size = size ∧ e.chunk_count = chunk_count ∧ e.root = root then
      some ((List.range chunk_count).filter (fun i => !get_bit e.haveBits i))
    else none
  | none => none

/-- The length invariant of the store: every entry's bitmap has exactly
`⌈chunk_count/8⌉` bytes. -/
def StoreInv (s : Store) : Prop :=
  ∀ p ∈ s, (p : List Char × ResumeEntry).2.haveBits.length =
    bytesLen p.2.chunk_count

/-! ### net.rs / trust.rs: the pin verifier -/

/-- Rust `u8::to_ascii_lowercase` on a character. -/
def lowerChar (c : Char) : Char :=
  if 'A' ≤ c ∧ c ≤ 'Z' then Char.ofNat (c.toNat + 32) else c

/-- Rust `str::eq_ignore_ascii_case`: equal lengths and pairwise equal after
lowercasing. -/
def eqIgnoreAsciiCase (a b : List Char) : Bool :=
  a.length == b.length && (a.zip b).all (fun p => lowerChar p.1 == lowerChar p.2)

/-- trust.rs `sha256_hex`, with the SHA-256 digest function abstract:
each digest byte rendered as two lowercase hex characters. -/
def sha256_hex (sha256 : List Nat → List Nat) (bytes : List Nat) : List Char :=
  (sha256 bytes).foldr (fun b acc => byteToHex b ++ acc) []

/-- The mismatch error text of net.rs `verify_server_cert`. -/
def mismatchMsg (exp fp : List Char) : List Char :=
  "fingerprint mismatch: expected ".data ++ exp ++ ", got ".data ++ fp

/-- The untrusted-server error text of net.rs `verify_server_cert`. -/
def untrustedMsg (addr fp : List Char) : List Char :=
  "untrusted server ".data ++ addr ++ " with fingerprint ".data ++ fp ++
    ". Re-run with --accept-first or --fingerprint ".data ++ fp

/-- The observable outcome of `PinVerifier::verify_server_cert`: whether the
certificate was accepted, the error text otherwise, and the trust entry
written by `trust::set` as a side effect. -/
structure VerifyOutcome where
  accepted : Bool
  errMsg : Option (List Char)
  persisted : Option (List Char × List Char)
deriving Repr, DecidableEq

/-- net.rs `PinVerifier::verify_server_cert`: pin comparison when an expected
fingerprint exists, otherwise trust-on-first-use gated by `accept_first`. -/
def verify_server_cert (sha256 : List Nat → List Nat)
    (expected : Option (List Char)) (accept_first : Bool)
    (addr : List Char) (leaf_der : List Nat) : VerifyOutcome :=
  let fp := sha256_hex sha256 leaf_der
  match expected with
  | some exp =>
    if eqIgnoreAsciiCase exp fp then ⟨true, none, none⟩
    else ⟨false, some (mismatchMsg exp fp), none⟩
  | none =>
    if accept_first then ⟨true, none, some (addr, fp)⟩
    else ⟨false, some (untrustedMsg addr fp), none⟩

/-! ## Claim theorems -/

/-- C1: the claim says every wire rel_path is normalized so that it contains
no `..` components and every access stays under the folder root.  Evaluating
the code's only normalization function on the wire path `../secret` shows it
passes `..` components through unchanged (the server then joins the raw
rel_path onto the root). -/
theorem c1_normalize_rel_keeps_dotdot :
    normalize_rel ("../secret".data) = ("../secret".data) ∧
    hasDotDotComponent (normalize_rel ("../secret".data)) = true := by
  exact ⟨rfl, rfl⟩

/-- C2 (counterexample): with base diff `[0]` and a matching resume entry
whose missing set is empty, the intersection is empty, yet the code requests
the full base diff `[0]` instead of transferring nothing. -/
theorem c2_empty_intersection_falls_back :
    listInter [] [0] = ([] : List Nat) ∧
    effective_need [0] (some []) = [0] := by
  exact ⟨rfl, rfl⟩

/-- C2 (amended): with a matching resume entry the requested set is the
intersection of the base diff with the resume-missing set when that
intersection is non-empty, and the full base diff otherwise (also when no
resume entry matches); the effective set is empty exactly when the base diff
is empty, in which case the transfer is skipped with no further
verification. -/
theorem c2_effective_need_spec (need_base : List Nat)
    (rm : Option (List Nat)) :
    effective_need need_base none = need_base ∧
    (∀ missing, rm = some missing →
      (listInter missing need_base ≠ [] →
        effective_need need_base rm = listInter missing need_base) ∧
      (listInter missing need_base = [] →
        effective_need need_base rm = need_base)) ∧
    (effective_need need_base rm = [] ↔ need_base = []) := by
  refine ⟨rfl, ?_, ?_⟩
  · rintro missing rfl
    constructor
    · intro hne
      simp only [effective_need]
      rw [if_neg]
      simpa using hne
    · intro he
      simp only [effective_need, he]
      rfl
  · cases rm with
    | none => exact Iff.rfl
    | some missing =>
      simp only [effective_need]
      by_cases he : (listInter missing need_base).isEmpty
      · rw [if_pos he]
      · rw [if_neg he]
        constructor
        · intro h
          exact absurd (by simpa [List.isEmpty_iff] using h) he
        · rintro rfl
          exact absurd (by simp [listInter, List.isEmpty_iff]) he

/-- C2 (witness). -/
theorem c2_effective_need_spec_witness :
    effective_need [0, 1] (some [1, 5]) = listInter [1, 5] [0, 1] := by
  have h := (c2_effective_need_spec [0, 1] (some [1, 5])).2.1 [1, 5] rfl
  exact h.1 (by decide)

/-- C9 (counterexample): the code partitions the need set by enumeration
position, so for the need set `[0, 2]` with 2 streams chunk index 2 lands in
shard 1, while the claim's `index i → shard i mod S` puts both 0 and 2 (both
even) into shard 0. -/
theorem c9_position_based_round_robin :
    partition_rr [0, 2] 2 = [[0], [2]] ∧
    partitionByValue [0, 2] 2 = [[0, 2], []] ∧
    partition_rr [0, 2] 2 ≠ partitionByValue [0, 2] 2 := by
  refine ⟨rfl, rfl, ?_⟩
  decide

theorem missAt_iff (lc : List ChunkInfo) (i : Nat) (h : Hash) :
    missAt lc i h = true ↔
      (lc.length ≤ i ∨ (lc.getD i defaultChunk).hash ≠ h) := by
  unfold missAt
  cases hg : lc.get? i with
  | none =>
    have hlen : lc.length ≤ i := List.get?_eq_none.mp hg
    simp [hlen]
  | some c =>
    have hlt : ¬lc.length ≤ i := by
      intro hle
      rw [List.get?_eq_none.mpr hle] at hg
      cases hg
    have hgd : lc.getD i defaultChunk = c := by
      rw [List.getD_eq_getD_get?, hg]
      rfl
    rw [hgd]
    simp only [ne_eq, decide_eq_true_eq]
    constructor
    · exact Or.inr
    · rintro (hle | hne)
      · exact absurd hle hlt
      · exact hne

theorem mem_diffGo (lc : List ChunkInfo) :
    ∀ (rest : List Hash) (start i : Nat),
      i ∈ diffGo lc start rest ↔
        (start ≤ i ∧ i < start + rest.length ∧
          missAt lc i (rest.getD (i - start) []) = true)
  | [], start, i => by
    simp only [diffGo, List.not_mem_nil, List.length_nil, false_iff]
    omega
  | h :: t, start, i => by
    have ih := mem_diffGo lc t (start + 1) i
    by_cases hm : missAt lc start h = true
    · simp only [diffGo, hm, if_true, List.mem_cons]
      constructor
      · rintro (rfl | hmem)
        · refine ⟨Nat.le_refl _, by simp, ?_⟩
          simpa using hm
        · obtain ⟨h1, h2, h3⟩ := ih.mp hmem
          refine ⟨by omega, by simpa using by omega, ?_⟩
          have hs : i - start = (i - (start + 1)) + 1 := by omega
          rw [hs, List.getD_cons_succ]
          exact h3
      · rintro ⟨h1, h2, h3⟩
        rcases Nat.eq_or_lt_of_le h1 with rfl | hlt
        · exact Or.inl rfl
        · refine Or.inr (ih.mpr ⟨hlt, by simp at h2; omega, ?_⟩)
          have hs : i - start = (i - (start + 1)) + 1 := by omega
          rw [hs, List.getD_cons_succ] at h3
          exact h3
    · simp only [diffGo, hm, if_false, Bool.false_eq_true]
      rw [ih]
      constructor
      · rintro ⟨h1, h2, h3⟩
        refine ⟨by omega, by simp; omega, ?_⟩
        have hs : i - start = (i - (start + 1)) + 1 := by omega
        rw [hs, List.getD_cons_succ]
        exact h3
      · rintro ⟨h1, h2, h3⟩
        rcases Nat.eq_or_lt_of_le h1 with rfl | hlt
        · rw [Nat.sub_self, List.getD_cons_zero] at h3
          exact absurd h3 hm
        · refine ⟨hlt, by simp at h2; omega, ?_⟩
          have hs : i - start = (i - (start + 1)) + 1 := by omega
          rw [hs, List.getD_cons_succ] at h3
          exact h3

theorem diffGo_sorted (lc : List ChunkInfo) :
    ∀ (rest : List Hash) (start : Nat),
      List.Sorted (· < ·) (diffGo lc start rest)
  | [], _ => by simp [diffGo]
  | h :: t, start => by
    have ih := diffGo_sorted lc t (start + 1)
    by_cases hm : missAt lc start h = true
    · simp only [diffGo, hm, if_true]
      refine List.sorted_cons.mpr ⟨?_, ih⟩
      intro b hb
      have := (mem_diffGo lc t (start + 1) b).mp hb
      omega
    · simpa [diffGo, hm] using ih

/-- C5: `diff_needed_indices(L, R)` returns exactly the indices `i` below
`len(R)` with `L[i].hash ≠ R[i]` or `i ≥ len(L)`, in strictly ascending
order; in particular every returned index is below `len(R)`. -/
theorem c5_diff_needed_indices_spec (lc : List ChunkInfo)
    (remote : List Hash) :
    (∀ i, i ∈ diff_needed_indices lc remote ↔
      (i < remote.length ∧
        (lc.length ≤ i ∨ (lc.getD i defaultChunk).hash ≠ remote.getD i []))) ∧
    List.Sorted (· < ·) (diff_needed_indices lc remote) := by
  constructor
  · intro i
    rw [diff_needed_indices, mem_diffGo]
    simp only [Nat.zero_add, Nat.sub_zero, Nat.zero_le, true_and]
    exact and_congr_right fun _ => missAt_iff lc i (remote.getD i [])
  · exact diffGo_sorted lc remote 0

theorem startsWithB_iff : ∀ (pre s : List Char),
    startsWithB pre s = true ↔ SpecStarts pre s
  | [], s => by simp [startsWithB, SpecStarts]
  | _ :: _, [] => by simp [startsWithB, SpecStarts]
  | a :: as, b :: bs => by
    have ih := startsWithB_iff as bs
    simp only [startsWithB, Bool.and_eq_true, beq_iff_eq]
    constructor
    · rintro ⟨rfl, h2⟩
      obtain ⟨t, rfl⟩ := ih.mp h2
      exact ⟨t, rfl⟩
    · rintro ⟨t, ht⟩
      injection ht with h1 h2
      exact ⟨h1.symm, ih.mpr ⟨t, h2⟩⟩

theorem endsWithB_iff (suf s : List Char) :
    endsWithB suf s = true ↔ SpecEnds suf s := by
  rw [endsWithB, startsWithB_iff]
  constructor
  · rintro ⟨t, ht⟩
    refine ⟨t.reverse, ?_⟩
    have h := congrArg List.reverse ht
    simpa [List.reverse_append] using h
  · rintro ⟨t, rfl⟩
    exact ⟨t.reverse, by simp [List.reverse_append]⟩

theorem containsB_iff (needle : List Char) :
    ∀ s, containsB needle s = true ↔ SpecHasSub needle s
  | [] => by
    simp only [containsB, SpecHasSub, List.isEmpty_iff]
    constructor
    · rintro rfl
      exact ⟨[], [], rfl⟩
    · rintro ⟨a, b, hab⟩
      obtain ⟨h1, _⟩ := List.append_eq_nil.mp hab.symm
      exact (List.append_eq_nil.mp h1).2
  | c :: rest => by
    have ih := containsB_iff needle rest
    simp only [containsB, Bool.or_eq_true]
    rw [startsWithB_iff, ih]
    constructor
    · rintro (⟨t, hab⟩ | ⟨a, b, hab⟩)
      · exact ⟨[], t, by simpa using hab⟩
      · exact ⟨c :: a, b, by rw [hab]; rfl⟩
    · rintro ⟨a, b, hab⟩
      cases a with
      | nil => exact Or.inl ⟨b, by simpa using hab⟩
      | cons x a' =>
        rw [List.cons_append, List.cons_append] at hab
        injection hab with _ h2
        exact Or.inr ⟨a', b, h2⟩

theorem deBackslash_ne (c : Char) : deBackslash c ≠ '\\' := by
  unfold deBackslash
  split
  · decide
  · next h => exact h

theorem mem_dropLeadSlash {c : Char} :
    ∀ {l : List Char}, c ∈ dropLeadSlash l → c ∈ l
  | [], h => h
  | x :: rest, h => by
    unfold dropLeadSlash at h
    split at h
    · exact List.mem_cons_of_mem _ (mem_dropLeadSlash h)
    · exact h

theorem normalize_rel_no_backslash (p : List Char) :
    '\\' ∉ normalize_rel p := by
  intro hmem
  obtain ⟨c, _, hc⟩ := List.mem_map.mp (mem_dropLeadSlash hmem)
  exact deBackslash_ne c hc

theorem map_deBackslash_normalize (p : List Char) :
    (normalize_rel p).map deBackslash = normalize_rel p := by
  have h : ∀ c ∈ normalize_rel p, deBackslash c = id c := by
    intro c hc
    show deBackslash c = c
    unfold deBackslash
    rw [if_neg]
    intro he
    exact normalize_rel_no_backslash p (he ▸ hc)
  rw [List.map_congr_left h, List.map_id]

theorem is_ignored_rel_iff (x : List Char) :
    is_ignored_rel (normalize_rel x) = true ↔
      (SpecStarts tmpMark (normalize_rel x) ∨
        SpecHasSub gitMark (normalize_rel x) ∨
        SpecEnds partMark (normalize_rel x) ∨
        SpecHasSub tildeMark (normalize_rel x)) := by
  simp only [is_ignored_rel, map_deBackslash_normalize, Bool.or_eq_true]
  rw [startsWithB_iff, containsB_iff, endsWithB_iff, containsB_iff]
  tauto

/-- C3 (counterexample): the top-level file `~$x` has a file name starting
with `~$`, yet the mirror pass moves it to trash: the code only ignores the
substring `/~$`, which a top-level name never contains. -/
theorem c3_toplevel_tilde_file_trashed :
    mirror_deletions [("~$x".data)] [] none = [("~$x".data)] ∧
    startsWithB ("~$".data) (fileNameOf ("~$x".data)) = true := ⟨rfl, rfl⟩

/-- C3 (amended): in mirror mode (no single-file filter) the rel paths moved
to trash are exactly the normalized local paths absent from the server's
summary that neither start with `.leafsync_tmp/`, nor contain `/.git/`, nor
end with `.part`, nor contain the substring `/~$` (a non-top-level component
starting with `~$`); no other local file is touched. -/
theorem c3_mirror_deletion_spec (locals remotes : List (List Char))
    (r : List Char) :
    r ∈ mirror_deletions locals remotes none ↔
      (r ∈ locals.map normalize_rel ∧ r ∉ remotes.map normalize_rel ∧
        ¬(SpecStarts tmpMark r ∨ SpecHasSub gitMark r ∨
          SpecEnds partMark r ∨ SpecHasSub tildeMark r)) := by
  rw [mirror_deletions, List.mem_filter]
  refine and_congr_right fun hmem => ?_
  obtain ⟨x, _, rfl⟩ := List.mem_map.mp hmem
  simp only [Bool.and_eq_true, Bool.not_eq_true']
  constructor
  · rintro ⟨⟨hc, _⟩, hign⟩
    refine ⟨?_, ?_⟩
    · intro habs
      unfold List.contains at hc
      rw [List.elem_eq_mem] at hc
      simp [habs] at hc
    · intro habs
      rw [← is_ignored_rel_iff] at habs
      rw [habs] at hign
      cases hign
  · rintro ⟨h1, h2⟩
    refine ⟨⟨?_, trivial⟩, ?_⟩
    · unfold List.contains
      rw [List.elem_eq_mem]
      simpa using h1
    · rw [← Bool.not_eq_true, is_ignored_rel_iff]
      exact h2

theorem rrLoop_length (S : Nat) :
    ∀ (rest : List Nat) (i : Nat) (parts : List (List Nat)),
      (rrLoop S i rest parts).length = parts.length
  | [], _, _ => rfl
  | idx :: rest, i, parts => by
    rw [rrLoop, rrLoop_length S rest, List.length_set]

theorem getD_set_self {α : Type} {l : List α} {k : Nat} {v d : α}
    (hk : k < l.length) : (l.set k v).getD k d = v := by
  rw [List.getD_eq_getD_get?, List.get?_set_eq_of_lt _ hk]
  rfl

theorem getD_set_ne {α : Type} {l : List α} {k j : Nat} {v d : α}
    (h : k ≠ j) : (l.set k v).getD j d = l.getD j d := by
  rw [List.getD_eq_getD_get?, List.get?_set_ne _ _ h, ← List.getD_eq_getD_get?]

theorem rrLoop_getD (S : Nat) (hS : 0 < S) :
    ∀ (rest : List Nat) (i : Nat) (parts : List (List Nat)) (j : Nat),
      parts.length = S → j < S →
      (rrLoop S i rest parts).getD j [] =
        parts.getD j [] ++ shardSpec S j i rest
  | [], i, parts, j, _, _ => by simp [rrLoop, shardSpec]
  | idx :: rest, i, parts, j, hlen, hj => by
    rw [rrLoop]
    by_cases hij : i % S = j
    · have h1 : (parts.set (i % S) (parts.getD (i % S) [] ++ [idx])).getD j []
          = parts.getD (i % S) [] ++ [idx] := by
        rw [hij]
        exact getD_set_self (by rw [hlen]; exact hj)
      rw [rrLoop_getD S hS rest (i + 1) _ j (by rw [List.length_set, hlen]) hj,
        h1, hij]
      simp [shardSpec, hij]
    · have h1 : (parts.set (i % S) (parts.getD (i % S) [] ++ [idx])).getD j []
          = parts.getD j [] := getD_set_ne hij
      rw [rrLoop_getD S hS rest (i + 1) _ j (by rw [List.length_set, hlen]) hj,
        h1]
      simp [shardSpec, hij]

theorem shardSpec_mem (S j : Nat) :
    ∀ (rest : List Nat) (i n : Nat), n < rest.length → (i + n) % S = j →
      rest.getD n 0 ∈ shardSpec S j i rest
  | [], _, n, hn, _ => absurd hn (by simp)
  | x :: rest, i, n, hn, hmod => by
    cases n with
    | zero =>
      rw [Nat.add_zero] at hmod
      simp [shardSpec, hmod]
    | succ n =>
      have hrec := shardSpec_mem S j rest (i + 1) n (by simpa using hn)
        (by rw [show i + 1 + n = i + (n + 1) by omega]; exact hmod)
      simp only [List.getD_cons_succ, shardSpec]
      split
      · exact List.mem_cons_of_mem _ hrec
      · exact hrec

theorem replicate_nil_getD :
    ∀ (n j : Nat), (List.replicate n ([] : List Nat)).getD j [] = []
  | 0, _ => rfl
  | _ + 1, 0 => rfl
  | n + 1, j + 1 => by
    rw [List.replicate_succ, List.getD_cons_succ]
    exact replicate_nil_getD n j

/-- C9 (amended): the configured stream count is clamped to `[1,16]`; the
code partitions the need list round-robin by enumeration position, the
element at position `n` going to shard `n mod S`; one `RequestChunks` is
issued per non-empty shard. -/
theorem c9_partition_spec (need : List Nat) (streams : Nat) :
    1 ≤ clamp_streams streams ∧ clamp_streams streams ≤ 16 ∧
    (1 ≤ streams → streams ≤ 16 → clamp_streams streams = streams) ∧
    (partition_rr need (clamp_streams streams)).length =
      clamp_streams streams ∧
    (∀ j, j < clamp_streams streams →
      (partition_rr need (clamp_streams streams)).getD j [] =
        shardSpec (clamp_streams streams) j 0 need) ∧
    (∀ n, n < need.length →
      need.getD n 0 ∈
        shardSpec (clamp_streams streams) (n % clamp_streams streams) 0
          need) ∧
    substream_requests need streams =
      (partition_rr need (clamp_streams streams)).filter
        (fun p => !p.isEmpty) := by
  have hS : 1 ≤ clamp_streams streams :=
    le_min (le_max_right _ _) (by norm_num)
  refine ⟨hS, min_le_right _ _, ?_, ?_, ?_, ?_, rfl⟩
  · intro h1 h16
    rw [clamp_streams, Nat.max_eq_left h1, Nat.min_eq_left h16]
  · rw [partition_rr, rrLoop_length, List.length_replicate]
  · intro j hj
    rw [partition_rr,
      rrLoop_getD _ hS need 0 _ j (List.length_replicate ..) hj,
      replicate_nil_getD, List.nil_append]
  · intro n hn
    have := shardSpec_mem (clamp_streams streams)
      (n % clamp_streams streams) need 0 n hn (by rw [Nat.zero_add])
    exact this

/-- C9 (witness). -/
theorem c9_partition_spec_witness :
    (partition_rr [5, 7, 9] (clamp_streams 2)).getD 0 [] =
      shardSpec (clamp_streams 2) 0 0 [5, 7, 9] := by
  have h := c9_partition_spec [5, 7, 9] 2
  exact h.2.2.2.2.1 0 (by decide)

theorem levelUp_ne_nil (hp : Hash → Hash → Hash) {l : List Hash}
    (h : l ≠ []) : levelUp hp l ≠ [] := by
  intro he
  have hl := levelUp_length hp l
  rw [he, List.length_nil] at hl
  have hz : l.length = 0 := by omega
  exact h (List.length_eq_zero.mp hz)

theorem getLast?_cons_ne {α : Type} (a : α) {l : List α} (h : l ≠ []) :
    (a :: l).getLast? = l.getLast? := by
  cases l with
  | nil => exact absurd rfl h
  | cons b t => rfl

theorem buildUpper_root (hp : Hash → Hash → Hash) :
    (level : List Hash) → level ≠ [] →
      (if (buildUpper hp level).isEmpty then level.headD zeroHash
       else (((buildUpper hp level).getLast?).getD []).headD zeroHash) =
        merkleRootSpec hp level
  | [], h => absurd rfl h
  | [a], _ => by
    rw [buildUpper]
    simp [merkleRootSpec]
  | a :: b :: rest, _ => by
    have hgt : ¬((a :: b :: rest).length ≤ 1) := by
      simp
    rw [buildUpper, dif_neg hgt]
    have hne : levelUp hp (a :: b :: rest) ≠ [] :=
      levelUp_ne_nil hp (by simp)
    have ih := buildUpper_root hp (levelUp hp (a :: b :: rest)) hne
    rw [show merkleRootSpec hp (a :: b :: rest) =
      merkleRootSpec hp (levelUp hp (a :: b :: rest)) from by
        rw [merkleRootSpec]]
    rw [if_neg (by simp)]
    by_cases hbu : (buildUpper hp (levelUp hp (a :: b :: rest))).isEmpty
    · have hb : buildUpper hp (levelUp hp (a :: b :: rest)) = [] :=
        List.isEmpty_iff.mp hbu
      rw [hb] at ih ⊢
      simp only [List.isEmpty_nil, if_true] at ih
      simpa using ih
    · have hb : buildUpper hp (levelUp hp (a :: b :: rest)) ≠ [] := by
        simpa [List.isEmpty_iff] using hbu
      rw [if_neg hbu] at ih
      rw [getLast?_cons_ne _ hb]
      exact ih
termination_by level => level.length
decreasing_by
  rw [levelUp_length]
  simp only [List.length_cons]
  omega

/-- C6: the root of `build_merkle` is the all-zero value for an empty chunk
list, the sole leaf hash for a single chunk, and otherwise the top of the
binary tree built by repeated pairwise hashing with an odd last node paired
with itself; it is a function of the leaf hashes alone.  (The pair-hash
`hp`, SHA-256 of the concatenation in the code, is abstract.) -/
theorem c6_merkle_root_spec (hp : Hash → Hash → Hash)
    (chunks : List ChunkInfo) :
    root_hash (build_merkle hp chunks) =
      merkleRootSpec hp (chunks.map ChunkInfo.hash) ∧
    (chunks = [] → root_hash (build_merkle hp chunks) = zeroHash) ∧
    (∀ c, chunks = [c] → root_hash (build_merkle hp chunks) = c.hash) ∧
    (∀ chunks2, chunks.map ChunkInfo.hash = chunks2.map ChunkInfo.hash →
      root_hash (build_merkle hp chunks) = root_hash (build_merkle hp chunks2)) := by
  have hmain : ∀ (cs : List ChunkInfo),
      root_hash (build_merkle hp cs) =
        merkleRootSpec hp (cs.map ChunkInfo.hash) := by
    intro cs
    by_cases hmap : cs.map ChunkInfo.hash = []
    · rw [root_hash, build_merkle]
      simp only [hmap, List.isEmpty_nil, if_true]
      simp [merkleRootSpec]
    · have haux := buildUpper_root hp (cs.map ChunkInfo.hash) hmap
      rw [root_hash, build_merkle]
      rw [if_neg (by simpa [List.isEmpty_iff] using hmap)]
      exact haux
  refine ⟨hmain chunks, ?_, ?_, ?_⟩
  · rintro rfl
    rw [hmain]
    simp [merkleRootSpec]
  · rintro c rfl
    rw [hmain]
    simp [merkleRootSpec]
  · intro chunks2 heq
    rw [hmain, hmain, heq]

/-- C6 (witness). -/
theorem c6_merkle_root_spec_witness :
    root_hash (build_merkle (fun a b => a ++ b) [⟨0, [7], 1⟩]) = [7] := by
  have h := c6_merkle_root_spec (fun a b => a ++ b) [⟨0, [7], 1⟩]
  exact h.2.2.1 ⟨0, [7], 1⟩ rfl

/-- C7: with an expected fingerprint configured, verification accepts iff
the leaf certificate's hex SHA-256 matches it ASCII-case-insensitively,
otherwise failing with an error carrying both values; with no expected
fingerprint it accepts iff `accept_first`, persisting exactly one trust
entry `(addr, fp)` in that case, and otherwise refuses with a message
surfacing the observed fingerprint. -/
theorem c7_pin_verifier_spec (sha256 : List Nat → List Nat)
    (expected : Option (List Char)) (accept_first : Bool)
    (addr : List Char) (leaf_der : List Nat) :
    (∀ exp, expected = some exp →
      ((verify_server_cert sha256 expected accept_first addr
          leaf_der).accepted = true ↔
        eqIgnoreAsciiCase exp (sha256_hex sha256 leaf_der) = true) ∧
      (verify_server_cert sha256 expected accept_first addr
          leaf_der).persisted = none ∧
      (eqIgnoreAsciiCase exp (sha256_hex sha256 leaf_der) = false →
        ∃ m, (verify_server_cert sha256 expected accept_first addr
            leaf_der).errMsg = some m ∧
          SpecHasSub exp m ∧ SpecHasSub (sha256_hex sha256 leaf_der) m)) ∧
    (expected = none →
      ((verify_server_cert sha256 expected accept_first addr
          leaf_der).accepted = accept_first ∧
       (accept_first = true →
         (verify_server_cert sha256 expected accept_first addr
            leaf_der).persisted =
           some (addr, sha256_hex sha256 leaf_der) ∧
         (verify_server_cert sha256 expected accept_first addr
            leaf_der).errMsg = none) ∧
       (accept_first = false →
         (verify_server_cert sha256 expected accept_first addr
            leaf_der).persisted = none ∧
         ∃ m, (verify_server_cert sha256 expected accept_first addr
             leaf_der).errMsg = some m ∧
           SpecHasSub (sha256_hex sha256 leaf_der) m))) ∧
    ((verify_server_cert sha256 expected accept_first addr
        leaf_der).persisted ≠ none ↔
      (expected = none ∧ accept_first = true)) := by
  refine ⟨?_, ?_, ?_⟩
  · rintro exp rfl
    by_cases hm : eqIgnoreAsciiCase exp (sha256_hex sha256 leaf_der) = true
    · simp [verify_server_cert, hm]
    · rw [Bool.not_eq_true] at hm
      refine ⟨?_, ?_, ?_⟩
      · simp [verify_server_cert, hm]
      · simp [verify_server_cert, hm]
      · intro _
        refine ⟨mismatchMsg exp (sha256_hex sha256 leaf_der), ?_, ?_, ?_⟩
        · simp [verify_server_cert, hm]
        · exact ⟨("fingerprint mismatch: expected ".data),
            (", got ".data ++ sha256_hex sha256 leaf_der),
            by simp [mismatchMsg]⟩
        · exact ⟨("fingerprint mismatch: expected ".data ++ exp ++
            ", got ".data), [], by simp [mismatchMsg]⟩
  · rintro rfl
    cases accept_first with
    | true => simp [verify_server_cert]
    | false =>
      refine ⟨by simp [verify_server_cert], by simp, ?_⟩
      intro _
      refine ⟨by simp [verify_server_cert],
        untrustedMsg addr (sha256_hex sha256 leaf_der),
        by simp [verify_server_cert], ?_⟩
      exact ⟨("untrusted server ".data ++ addr ++
          " with fingerprint ".data),
        (". Re-run with --accept-first or --fingerprint ".data ++
          sha256_hex sha256 leaf_der),
        by simp [untrustedMsg]⟩
  · cases expected with
    | some exp =>
      by_cases hm : eqIgnoreAsciiCase exp (sha256_hex sha256 leaf_der) = true
      · simp [verify_server_cert, hm]
      · rw [Bool.not_eq_true] at hm
        simp [verify_server_cert, hm]
    | none =>
      cases accept_first with
      | true => simp [verify_server_cert]
      | false => simp [verify_server_cert]

/-- C7 (witness). -/
theorem c7_pin_verifier_spec_witness :
    (verify_server_cert (fun _ => [171]) none true (['a']) []).persisted =
      some (['a'], sha256_hex (fun _ => [171]) []) := by
  have h := c7_pin_verifier_spec (fun _ => [171]) none true (['a']) []
  exact ((h.2.1 rfl).2.1 rfl).1

theorem get_bit_eq_testBit (bits : List Nat) (i : Nat) :
    get_bit bits i =
      (decide (i / 8 < bits.length) &&
        (bits.getD (i / 8) 0).testBit (i % 8)) := by
  unfold get_bit
  by_cases h : i / 8 < bits.length
  · rw [if_pos h]
    simp only [h, decide_True, Bool.true_and]
    rw [Nat.one_shiftLeft, Nat.and_two_pow]
    cases hb : (bits.getD (i / 8) 0).testBit (i % 8) with
    | false => simp
    | true =>
      have hne : (2 : Nat) ^ (i % 8) ≠ 0 :=
        Nat.pos_iff_ne_zero.mp (Nat.two_pow_pos (i % 8))

      simp [hne]
  · rw [if_neg h]
    simp [h]

theorem set_bit_length (bits : List Nat) (i : Nat) :
    (set_bit bits i).length = bits.length := by
  unfold set_bit
  split
  · exact List.length_set ..
  · rfl

theorem get_bit_set_bit (bits : List Nat) (i j : Nat) :
    get_bit (set_bit bits i) j =
      (get_bit bits j || (i == j && decide (i / 8 < bits.length))) := by
  by_cases hcap : i / 8 < bits.length
  · have hset : set_bit bits i =
        bits.set (i / 8) (bits.getD (i / 8) 0 ||| (1 <<< (i % 8))) := by
      unfold set_bit
      rw [if_pos hcap]
    rw [hset, get_bit_eq_testBit, get_bit_eq_testBit, List.length_set]
    by_cases hbyte : j / 8 = i / 8
    · rw [hbyte, getD_set_self hcap]
      rw [Nat.testBit_lor, Nat.one_shiftLeft]
      simp only [hcap, decide_True, Bool.true_and, Bool.and_true]
      by_cases hij : i = j
      · subst hij
        simp [Nat.testBit_two_pow_self]
      · have hbit : i % 8 ≠ j % 8 := by omega
        rw [Nat.testBit_two_pow_of_ne hbit]
        simp [hij]
    · rw [getD_set_ne (fun h => hbyte h.symm)]
      have hij : (i == j) = false := by
        simp only [beq_eq_false_iff_ne, ne_eq]
        intro h
        exact hbyte (by rw [h])
      simp [hij]
  · have hset : set_bit bits i = bits := by
      unfold set_bit
      rw [if_neg hcap]
    rw [hset]
    simp [hcap]

theorem get_bit_foldl_iff (idxs : List Nat) :
    ∀ (bits : List Nat) (j : Nat),
      get_bit (idxs.foldl (fun bs i => set_bit bs i) bits) j = true ↔
        (get_bit bits j = true ∨ (j ∈ idxs ∧ j / 8 < bits.length)) := by
  induction idxs with
  | nil => simp
  | cons i rest ih =>
    intro bits j
    simp only [List.foldl_cons]
    rw [ih (set_bit bits i) j, set_bit_length]
    have hsb : get_bit (set_bit bits i) j = true ↔
        (get_bit bits j = true ∨ (i = j ∧ i / 8 < bits.length)) := by
      rw [get_bit_set_bit]
      simp
    rw [hsb]
    simp only [List.mem_cons]
    constructor
    · rintro ((hg | ⟨rfl, hc⟩) | ⟨hm, hc⟩)
      · exact Or.inl hg
      · exact Or.inr ⟨Or.inl rfl, hc⟩
      · exact Or.inr ⟨Or.inr hm, hc⟩
    · rintro (hg | ⟨(rfl | hm), hc⟩)
      · exact Or.inl (Or.inl hg)
      · exact Or.inl (Or.inr ⟨rfl, hc⟩)
      · exact Or.inr ⟨hm, hc⟩

theorem foldl_set_bit_length (idxs : List Nat) :
    ∀ (bits : List Nat),
      (idxs.foldl (fun bs i => set_bit bs i) bits).length = bits.length := by
  induction idxs with
  | nil => intro bits; rfl
  | cons i rest ih =>
    intro bits
    simp only [List.foldl_cons]
    rw [ih (set_bit bits i), set_bit_length]

theorem get_bit_zeros (n i : Nat) :
    get_bit (List.replicate n 0) i = false := by
  unfold get_bit
  split
  · have hz : (List.replicate n (0 : Nat)).getD (i / 8) 0 = 0 := by
      rcases Nat.lt_or_ge (i / 8) n with h | h
      · rw [List.getD_eq_getElem _ _ (by simpa using h), List.getElem_replicate]
      · exact List.getD_eq_default _ _ (by simpa using h)
    rw [hz]
    simp
  · rfl

theorem find?_map_replace (k : List Char) (e : ResumeEntry) :
    ∀ (s : Store), (s.find? (fun p => p.1 == k)).isSome = true →
      (s.map (fun p => if p.1 == k then (k, e) else p)).find?
        (fun p => p.1 == k) = some (k, e)
  | [], hs => by simp at hs
  | p :: rest, hs => by
    by_cases hp : (p.1 == k) = true
    · rw [List.map_cons, if_pos hp]
      simp [List.find?_cons]
    · have hs' : (rest.find? (fun q => q.1 == k)).isSome = true := by
        rw [List.find?_cons] at hs
        simp only [hp] at hs
        exact hs
      rw [List.map_cons, if_neg hp, List.find?_cons]
      simp only [hp]
      exact find?_map_replace k e rest hs'

theorem storeFind_storeInsert (s : Store) (k : List Char) (e : ResumeEntry) :
    storeFind (storeInsert s k e) k = some e := by
  unfold storeInsert
  by_cases hs : (s.find? (fun p => p.1 == k)).isSome = true
  · rw [if_pos hs]
    unfold storeFind
    rw [find?_map_replace k e s hs]
    rfl
  · rw [if_neg hs]
    unfold storeFind
    simp [List.find?_cons]

theorem mem_storeInsert {s : Store} {k : List Char} {e : ResumeEntry}
    {p : List Char × ResumeEntry} :
    p ∈ storeInsert s k e → p = (k, e) ∨ p ∈ s := by
  unfold storeInsert
  split
  · intro hp
    obtain ⟨q, hq, he⟩ := List.mem_map.mp hp
    by_cases h1 : (q.1 == k) = true
    · rw [if_pos h1] at he
      exact Or.inl he.symm
    · rw [if_neg h1] at he
      exact Or.inr (he ▸ hq)
  · intro hp
    rcases List.mem_cons.mp hp with h | h
    · exact Or.inl h
    · exact Or.inr h

theorem storeFind_mem {s : Store} {k : List Char} {e : ResumeEntry}
    (h : storeFind s k = some e) : ∃ q ∈ s, q.2 = e := by
  unfold storeFind at h
  cases hf : s.find? (fun p => p.1 == k) with
  | none => rw [hf] at h; cases h
  | some q =>
    rw [hf] at h
    exact ⟨q, List.mem_of_find?_eq_some hf, by injection h⟩

/-- C8: within a metadata epoch `upsert_mark_many` only turns bits of the
stored bitmap from 0 to 1 (new 1-bits come only from the marked indices);
when the stored metadata differs from the arguments, the entry is reset to
an all-zero bitmap before any bit is set; and `missing_indices_for` returns
the unset-bit indices below `chunk_count` exactly when all three metadata
fields match, and `none` otherwise. -/
theorem c8_resume_monotonic_spec (store : Store) (addr rel : List Char)
    (size cc : Nat) (root : Hash) (idxs : List Nat) :
    (∀ e, storeFind store (resumeKey addr rel (hexHash root)) = some e →
      e.size = size → e.chunk_count = cc → e.root = root →
      ∃ e', storeFind (upsert_mark_many store addr rel size cc root idxs)
          (resumeKey addr rel (hexHash root)) = some e' ∧
        (∀ i, get_bit e.haveBits i = true → get_bit e'.haveBits i = true) ∧
        (∀ i, get_bit e'.haveBits i = true →
          get_bit e.haveBits i = true ∨ i ∈ idxs)) ∧
    (∀ e, storeFind store (resumeKey addr rel (hexHash root)) = some e →
      ¬(e.size = size ∧ e.chunk_count = cc ∧ e.root = root) →
      ∃ e', storeFind (upsert_mark_many store addr rel size cc root idxs)
          (resumeKey addr rel (hexHash root)) = some e' ∧
        e'.haveBits = idxs.foldl (fun bs i => set_bit bs i)
          (List.replicate (bytesLen cc) 0) ∧
        (∀ i, get_bit e'.haveBits i = true → i ∈ idxs)) ∧
    (∀ res, missing_indices_for store addr rel size cc root = some res →
      ∃ e, storeFind store (resumeKey addr rel (hexHash root)) = some e ∧
        e.size = size ∧ e.chunk_count = cc ∧ e.root = root ∧
        (∀ i, i ∈ res ↔ (i < cc ∧ get_bit e.haveBits i = false))) ∧
    (∀ e, storeFind store (resumeKey addr rel (hexHash root)) = some e →
      ¬(e.size = size ∧ e.chunk_count = cc ∧ e.root = root) →
      missing_indices_for store addr rel size cc root = none) := by
  refine ⟨?_, ?_, ?_, ?_⟩
  · intro e hfind h1 h2 h3
    have hupd : upsert_mark_many store addr rel size cc root idxs =
        storeInsert store (resumeKey addr rel (hexHash root))
          { e with haveBits :=
              idxs.foldl (fun bs i => set_bit bs i) e.haveBits } := by
      simp only [upsert_mark_many, hfind]
      rw [if_neg (by simp [h1, h2, h3])]
    rw [hupd]
    refine ⟨_, storeFind_storeInsert .., ?_, ?_⟩
    · intro i hi
      exact (get_bit_foldl_iff idxs e.haveBits i).mpr (Or.inl hi)
    · intro i hi
      rcases (get_bit_foldl_iff idxs e.haveBits i).mp hi with hg | ⟨hm, _⟩
      · exact Or.inl hg
      · exact Or.inr hm
  · intro e hfind hne
    have hcond : e.size ≠ size ∨ e.chunk_count ≠ cc ∨ e.root ≠ root := by
      tauto
    have hupd : upsert_mark_many store addr rel size cc root idxs =
        storeInsert store (resumeKey addr rel (hexHash root))
          { freshEntry size cc root with
              haveBits := markBits idxs (freshEntry size cc root).haveBits } := by
      simp only [upsert_mark_many, hfind]
      rw [if_pos hcond]
      rfl
    rw [hupd]
    refine ⟨_, storeFind_storeInsert .., rfl, ?_⟩
    intro i hi
    rcases (get_bit_foldl_iff idxs _ i).mp hi with hg | ⟨hm, _⟩
    · rw [show (freshEntry size cc root).haveBits =
        List.replicate (bytesLen cc) 0 from rfl, get_bit_zeros] at hg
      cases hg
    · exact hm
  · intro res hres
    cases hfind : storeFind store (resumeKey addr rel (hexHash root)) with
    | none =>
      simp only [missing_indices_for, hfind] at hres
      cases hres
    | some e =>
      simp only [missing_indices_for, hfind] at hres
      by_cases hmeta : e.size = size ∧ e.chunk_count = cc ∧ e.root = root
      · rw [if_pos hmeta] at hres
        injection hres with hres
        refine ⟨e, rfl, hmeta.1, hmeta.2.1, hmeta.2.2, ?_⟩
        intro i
        rw [← hres, List.mem_filter, List.mem_range]
        simp
      · rw [if_neg hmeta] at hres
        cases hres
  · intro e hfind hne
    simp only [missing_indices_for, hfind]
    rw [if_neg hne]

/-- C8 (witness). -/
theorem c8_resume_monotonic_spec_witness :
    ∃ e', storeFind (upsert_mark_many
        [(resumeKey (['a']) (['r']) (hexHash [5]),
          (⟨10, 3, [5], [1]⟩ : ResumeEntry))]
        (['a']) (['r']) 10 3 [5] [2])
        (resumeKey (['a']) (['r']) (hexHash [5])) = some e' ∧
      (∀ i, get_bit ((⟨10, 3, [5], [1]⟩ : ResumeEntry)).haveBits i = true →
        get_bit e'.haveBits i = true) ∧
      (∀ i, get_bit e'.haveBits i = true →
        get_bit ((⟨10, 3, [5], [1]⟩ : ResumeEntry)).haveBits i = true ∨
          i ∈ [2]) := by
  have h := c8_resume_monotonic_spec
    [(resumeKey (['a']) (['r']) (hexHash [5]),
      (⟨10, 3, [5], [1]⟩ : ResumeEntry))]
    (['a']) (['r']) 10 3 [5] [2]
  exact h.1 ⟨10, 3, [5], [1]⟩ rfl rfl rfl rfl

/-- C10: every resume-store operation keeps each stored entry's bitmap at
exactly `⌈chunk_count/8⌉` bytes; setting a bit at or beyond the bitmap's
capacity is a silent no-op that changes nothing, setting a bit never changes
the bitmap's length or any other bit, and reading a bit beyond the bitmap
returns false. -/
theorem c10_bitmap_invariant (store : Store) (addr rel : List Char)
    (size cc : Nat) (root : Hash) (idxs : List Nat)
    (bits : List Nat) (i j : Nat) :
    (StoreInv store →
      StoreInv (upsert_mark_many store addr rel size cc root idxs)) ∧
    (8 * bits.length ≤ i → set_bit bits i = bits) ∧
    ((set_bit bits i).length = bits.length) ∧
    (i ≠ j → get_bit (set_bit bits i) j = get_bit bits j) ∧
    (8 * bits.length ≤ i → get_bit bits i = false) := by
  refine ⟨?_, ?_, set_bit_length bits i, ?_, ?_⟩
  · intro hinv
    cases hfind : storeFind store (resumeKey addr rel (hexHash root)) with
    | none =>
      have hupd : upsert_mark_many store addr rel size cc root idxs =
          storeInsert store (resumeKey addr rel (hexHash root))
            { freshEntry size cc root with
                haveBits := markBits idxs (freshEntry size cc root).haveBits } := by
        simp only [upsert_mark_many, hfind]
        rw [if_neg (by simp [freshEntry])]
        rfl
      rw [hupd]
      intro p hp
      rcases mem_storeInsert hp with heq | hmem
      · rw [heq]
        show (markBits idxs (freshEntry size cc root).haveBits).length =
          bytesLen cc
        rw [markBits, foldl_set_bit_length]
        exact List.length_replicate ..
      · exact hinv p hmem
    | some e =>
      by_cases hmeta : e.size ≠ size ∨ e.chunk_count ≠ cc ∨ e.root ≠ root
      · have hupd : upsert_mark_many store addr rel size cc root idxs =
            storeInsert store (resumeKey addr rel (hexHash root))
              { freshEntry size cc root with
                  haveBits := markBits idxs (freshEntry size cc root).haveBits } := by
          simp only [upsert_mark_many, hfind]
          rw [if_pos hmeta]
          rfl
        rw [hupd]
        intro p hp
        rcases mem_storeInsert hp with heq | hmem
        · rw [heq]
          show (markBits idxs (freshEntry size cc root).haveBits).length =
            bytesLen cc
          rw [markBits, foldl_set_bit_length]
          exact List.length_replicate ..
        · exact hinv p hmem
      · push_neg at hmeta
        obtain ⟨h1, h2, h3⟩ := hmeta
        have hupd : upsert_mark_many store addr rel size cc root idxs =
            storeInsert store (resumeKey addr rel (hexHash root))
              { e with haveBits := markBits idxs e.haveBits } := by
          simp only [upsert_mark_many, hfind]
          rw [if_neg (by simp [h1, h2, h3])]
          rfl
        rw [hupd]
        intro p hp
        rcases mem_storeInsert hp with heq | hmem
        · obtain ⟨q, hq, hq2⟩ := storeFind_mem hfind
          rw [heq]
          show (markBits idxs e.haveBits).length = bytesLen e.chunk_count
          rw [markBits, foldl_set_bit_length]
          rw [← hq2]
          exact hinv q hq
        · exact hinv p hmem
  · intro hi
    unfold set_bit
    rw [if_neg (by omega)]
  · intro hne
    rw [get_bit_set_bit]
    have : (i == j) = false := by
      simp only [beq_eq_false_iff_ne, ne_eq]
      exact hne
    simp [this]
  · intro hi
    unfold get_bit
    rw [if_neg (by omega)]

/-- C10 (witness). -/
theorem c10_bitmap_invariant_witness :
    set_bit [0] 8 = [0] ∧ get_bit [0] 8 = false := by
  have h := c10_bitmap_invariant [] [] [] 0 0 [] [] [0] 8 0
  exact ⟨h.2.1 (by decide), h.2.2.2.2 (by decide)⟩

end LeafSync
